import Mathlib

/-!
Verification development for the angulario repository (src/src/gameLogic.ts,
src/src/App.tsx).  The numeric engine of the game is shallowly embedded:
JavaScript numbers are modelled by the type JsNum (exact real arithmetic for
finite values, with faithful propagation of signed infinities and NaN through
the operations the source uses), mathjs expression trees by the inductive type
Expr, and the functions simpsonsRule, getNewFunctions, calculateAngle, the
magnitude-balancing pre-pass of startNewRound, and the scoring formula of
submitGuess are translated definition by definition.
-/

/-- JsNum models an IEEE-754 double as used by the JavaScript source: a finite
real number, a signed infinity (the flag is true for positive infinity), or
NaN.  Floating-point rounding is idealised away (finite arithmetic is exact
real arithmetic); the propagation of infinities and NaN through the operations
used by gameLogic.ts is modelled faithfully. -/
inductive JsNum where
  | fin : ℝ → JsNum
  | inf : Bool → JsNum
  | nan : JsNum

/-- JavaScript addition on JsNum. -/
noncomputable def JsNum.add : JsNum → JsNum → JsNum
  | .fin a, .fin b => .fin (a + b)
  | .fin _, .inf s => .inf s
  | .inf s, .fin _ => .inf s
  | .inf s, .inf t => if s = t then .inf s else .nan
  | _, _ => .nan

/-- JavaScript negation on JsNum. -/
noncomputable def JsNum.neg : JsNum → JsNum
  | .fin a => .fin (-a)
  | .inf s => .inf (!s)
  | .nan => .nan

open Classical in
/-- JavaScript multiplication on JsNum (0 times an infinity is NaN). -/
noncomputable def JsNum.mul : JsNum → JsNum → JsNum
  | .fin a, .fin b => .fin (a * b)
  | .fin a, .inf s => if a = 0 then .nan else if 0 < a then .inf s else .inf (!s)
  | .inf s, .fin b => if b = 0 then .nan else if 0 < b then .inf s else .inf (!s)
  | .inf s, .inf t => .inf (s == t)
  | _, _ => .nan

open Classical in
/-- JavaScript division on JsNum.  A nonzero finite number divided by zero is a
signed infinity, 0/0 is NaN, a finite number divided by an infinity is 0.
(The sign of negative zero is not tracked: ℝ has a single zero.) -/
noncomputable def JsNum.div : JsNum → JsNum → JsNum
  | .fin a, .fin b =>
      if b = 0 then (if a = 0 then .nan else .inf (decide (0 < a))) else .fin (a / b)
  | .fin _, .inf _ => .fin 0
  | .inf s, .fin b => if b = 0 then .inf s else if 0 < b then .inf s else .inf (!s)
  | _, _ => .nan

open Classical in
/-- JavaScript Math.sqrt on JsNum: NaN for negative inputs (unlike
Real.sqrt, which would return 0). -/
noncomputable def JsNum.sqrt : JsNum → JsNum
  | .fin a => if a < 0 then .nan else .fin (Real.sqrt a)
  | .inf s => if s then .inf true else .nan
  | .nan => .nan

/-- JavaScript Math.min of a pair (NaN-propagating). -/
noncomputable def JsNum.minJ : JsNum → JsNum → JsNum
  | .fin a, .fin b => .fin (min a b)
  | .fin a, .inf s => if s then .fin a else .inf false
  | .inf s, .fin b => if s then .fin b else .inf false
  | .inf s, .inf t => .inf (s && t)
  | _, _ => .nan

/-- JavaScript Math.max of a pair (NaN-propagating). -/
noncomputable def JsNum.maxJ : JsNum → JsNum → JsNum
  | .fin a, .fin b => .fin (max a b)
  | .fin a, .inf s => if s then .inf true else .fin a
  | .inf s, .fin b => if s then .inf true else .fin b
  | .inf s, .inf t => .inf (s || t)
  | _, _ => .nan

open Classical in
/-- JavaScript Math.acos on JsNum: NaN outside the domain [-1,1]. -/
noncomputable def JsNum.acos : JsNum → JsNum
  | .fin a => if a < -1 ∨ 1 < a then .nan else .fin (Real.arccos a)
  | _ => .nan

open Classical in
/-- Exponentiation as produced by the mathjs pow used in the source grammar
(x^2, x^3, x^4 and the squares built by calculateAngle).  For a finite base
and an integer exponent this is exact integer power; for a nonnegative finite
base it is the real power; a negative base with a non-integer exponent gives a
complex result in mathjs, which the surrounding JavaScript arithmetic turns
into NaN.  Powers with non-finite base or exponent are not used by any claim
and are modelled as NaN. -/
noncomputable def JsNum.pow : JsNum → JsNum → JsNum
  | .fin a, .fin b =>
      if h : ∃ m : ℤ, b = (m : ℝ) then .fin (a ^ h.choose)
      else if 0 ≤ a then .fin (Real.rpow a b) else .nan
  | _, _ => .nan

open Classical in
/-- The JavaScript comparison (x < 0), used by the acute-angle branch of
calculateAngle; false for NaN. -/
def JsNum.ltZero : JsNum → Prop
  | .fin a => a < 0
  | .inf s => s = false
  | .nan => False

/-- The JavaScript strict-equality test (x === 0); false for NaN and the
infinities. -/
def JsNum.eqZero : JsNum → Prop
  | .fin a => a = 0
  | _ => False

/-- The JavaScript test (x >= 0); false for NaN, true for positive infinity. -/
def JsNum.nonneg : JsNum → Prop
  | .fin a => 0 ≤ a
  | .inf s => s = true
  | .nan => False

/-- Extract the finite value, if any (the isFinite filter of App.tsx). -/
def JsNum.toFin : JsNum → Option ℝ
  | .fin a => some a
  | _ => none

/-- The cube root used for the cbrt primitive (real cube root, defined for
negative arguments like JavaScript Math.cbrt). -/
noncomputable def realCbrt (v : ℝ) : ℝ :=
  if 0 ≤ v then v ^ ((1 : ℝ) / 3) else -((-v) ^ ((1 : ℝ) / 3))

/-- The named unary primitives of the generator grammar of
generateRandomFunction (gameLogic.ts lines 24-31). -/
inductive Fn where
  | sin | cos | exp | tanh | sinh | atan | asin | cbrt
deriving DecidableEq

open Classical in
/-- Pointwise semantics of a named unary primitive on a JsNum, following
JavaScript/mathjs: asin outside [-1,1] is a domain violation (complex in
mathjs, NaN once it meets the numeric pipeline); the remaining primitives are
total on finite inputs, and their limits at the infinities follow the
JavaScript Math functions. -/
noncomputable def JsNum.appFn : Fn → JsNum → JsNum
  | _, .nan => .nan
  | .sin, .fin v => .fin (Real.sin v)
  | .sin, .inf _ => .nan
  | .cos, .fin v => .fin (Real.cos v)
  | .cos, .inf _ => .nan
  | .exp, .fin v => .fin (Real.exp v)
  | .exp, .inf s => if s then .inf true else .fin 0
  | .tanh, .fin v => .fin (Real.tanh v)
  | .tanh, .inf s => .fin (if s then 1 else -1)
  | .sinh, .fin v => .fin (Real.sinh v)
  | .sinh, .inf s => .inf s
  | .atan, .fin v => .fin (Real.arctan v)
  | .atan, .inf s => .fin (if s then Real.pi / 2 else -(Real.pi / 2))
  | .asin, .fin v => if v < -1 ∨ 1 < v then .nan else .fin (Real.arcsin v)
  | .asin, .inf _ => .nan
  | .cbrt, .fin v => .fin (realCbrt v)
  | .cbrt, .inf s => .inf s

/-- Expr is the expression-tree data model (spec section 3): the variable x, a
numeric constant, the binary operators used by the source, application of a
named unary primitive, and negation.  Constants carry a JsNum because
calculateAngle interpolates computed numbers (which can be Infinity or NaN)
back into parsed expression strings. -/
inductive Expr where
  | X : Expr
  | const : JsNum → Expr
  | add : Expr → Expr → Expr
  | mul : Expr → Expr → Expr
  | div : Expr → Expr → Expr
  | pow : Expr → Expr → Expr
  | app : Fn → Expr → Expr
  | neg : Expr → Expr

/-- Pointwise evaluation of an expression at a real point, returning a JsNum
(spec 4.1: evaluate never raises; domain violations surface as NaN or
infinities). -/
noncomputable def evalF : Expr → ℝ → JsNum
  | .X, x => .fin x
  | .const v, _ => v
  | .add e1 e2, x => JsNum.add (evalF e1 x) (evalF e2 x)
  | .mul e1 e2, x => JsNum.mul (evalF e1 x) (evalF e2 x)
  | .div e1 e2, x => JsNum.div (evalF e1 x) (evalF e2 x)
  | .pow e1 e2, x => JsNum.pow (evalF e1 x) (evalF e2 x)
  | .app f e, x => JsNum.appFn f (evalF e x)
  | .neg e, x => JsNum.neg (evalF e x)

/-- Indices of the odd-indexed interior sample points of simpsonsRule
(gameLogic.ts line 12: for i = 1; i < n; i += 2), in loop order. -/
def simpOdd (n : ℕ) : List ℕ := (List.range n).filter (fun i => i % 2 == 1)

/-- Indices of the even-indexed interior sample points of simpsonsRule
(gameLogic.ts line 15: for i = 2; i < n - 1; i += 2), in loop order. -/
def simpEven (n : ℕ) : List ℕ :=
  (List.range (n - 1)).filter (fun i => decide (2 ≤ i) && (i % 2 == 0))

/-- The evenness adjustment of simpsonsRule (line 8: if n is odd, n++). -/
def simpsonN (n : ℕ) : ℕ := if n % 2 ≠ 0 then n + 1 else n

/-- simpsonsRule of gameLogic.ts lines 7-20, on JsNum-valued sample
functions: h = (b-a)/n, endpoints weighted once, odd interior points times 4,
even interior points times 2, result (h/3) * sum, with the sums accumulated in
loop order. -/
noncomputable def simpsonF (f : ℝ → JsNum) (a b : ℝ) (n : ℕ := 200) : JsNum :=
  let m := simpsonN n
  let h : ℝ := (b - a) / m
  let s0 := JsNum.add (f a) (f b)
  let s1 := (simpOdd m).foldl
    (fun (s : JsNum) (i : ℕ) => JsNum.add s (JsNum.mul (.fin 4) (f (a + (i : ℝ) * h)))) s0
  let s2 := (simpEven m).foldl
    (fun (s : JsNum) (i : ℕ) => JsNum.add s (JsNum.mul (.fin 2) (f (a + (i : ℝ) * h)))) s1
  JsNum.mul (.fin (h / 3)) s2

/-- The same Simpson scheme on plain real-valued functions; simpsonF reduces
to simpsonR whenever every sample is finite (lemma simpsonF_fin below), and
the closed-form quadrature lemmas are proved against this version. -/
noncomputable def simpsonR (f : ℝ → ℝ) (a b : ℝ) (n : ℕ := 200) : ℝ :=
  let m := simpsonN n
  let h : ℝ := (b - a) / m
  let s0 := f a + f b
  let s1 := (simpOdd m).foldl (fun (s : ℝ) (i : ℕ) => s + 4 * f (a + (i : ℝ) * h)) s0
  let s2 := (simpEven m).foldl (fun (s : ℝ) (i : ℕ) => s + 2 * f (a + (i : ℝ) * h)) s1
  h / 3 * s2

/-- The degeneracy test of the redraw loop of getNewFunctions (gameLogic.ts
line 113): the two drawn expressions are structurally equal, or the first
equals the parsed negation of the second.  Note the source checks
f1.equals(-(f2)) but never f2.equals(-(f1)). -/
def degen (f1 f2 : Expr) : Prop := f1 = f2 ∨ f1 = Expr.neg f2

open Classical in
/-- The while-loop of getNewFunctions (lines 113-115) with the random draws of
generateRandomFunction made explicit as a stream of candidate expressions:
draws k is the candidate tried at iteration k.  The loop itself is unbounded;
fuel counts how many iterations we are willing to observe, and none means the
loop is still running after that many iterations. -/
noncomputable def redraw (f1 : Expr) (draws : ℕ → Expr) : ℕ → ℕ → Option Expr
  | _, 0 => none
  | k, fuel + 1 => if degen f1 (draws k) then redraw f1 draws (k + 1) fuel else some (draws k)

/-- getNewFunctions (gameLogic.ts lines 107-117) with the generator
randomness made explicit: draws 0 is the first generated function f1, and
draws (k+1) is the candidate for f2 produced at redraw iteration k. -/
noncomputable def getNewFunctionsM (draws : ℕ → Expr) (fuel : ℕ) : Option (Expr × Expr) :=
  (redraw (draws 0) (fun k => draws (k + 1)) 0 fuel).map (fun f2 => (draws 0, f2))

/-- Result record of calculateAngle: the angle (null or a JsNum, possibly
NaN), and the two expressions actually used. -/
structure AngleResult where
  angle : Option JsNum
  f1_final : Expr
  f2_final : Expr

/-- The squared-expression integrand (f)^2 parsed by calculateAngle. -/
def sqExpr (f : Expr) : Expr := Expr.pow f (Expr.const (.fin 2))

/-- The norm computation of calculateAngle: sqrt of the Simpson integral of
the squared expression over the interval. -/
noncomputable def normOf (f : Expr) (a b : ℝ) : JsNum :=
  JsNum.sqrt (simpsonF (evalF (sqExpr f)) a b 200)

open Classical in
/-- calculateAngle from the inner-product computation on (gameLogic.ts lines
147-175): the part of the function after the optional unitary normalisation.
Computes the inner product, flips f2 (expression and scalar) when ensureAcute
and the inner product is negative, recomputes both norms, returns null if
either is exactly zero, else clamps cos to [-1,1] and converts acos to
degrees. -/
noncomputable def anglePhase2 (f1 f2 : Expr) (a b : ℝ) (ensureAcute : Bool) : AngleResult :=
  let ip0 := simpsonF (evalF (Expr.mul f1 f2)) a b 200
  let flip : Prop := ensureAcute = true ∧ JsNum.ltZero ip0
  let f2a := if flip then Expr.neg f2 else f2
  let ip := if flip then JsNum.neg ip0 else ip0
  let n1 := normOf f1 a b
  let n2 := normOf f2a a b
  if JsNum.eqZero n1 ∨ JsNum.eqZero n2 then ⟨none, f1, f2a⟩
  else
    let cos0 := JsNum.div ip (JsNum.mul n1 n2)
    let cos1 := JsNum.maxJ (.fin (-1)) (JsNum.minJ (.fin 1) cos0)
    ⟨some (JsNum.mul (JsNum.acos cos1) (.fin (180 / Real.pi))), f1, f2a⟩

open Classical in
/-- calculateAngle of gameLogic.ts lines 120-181.  In unitary mode the norms
of the two inputs are computed first; if either is exactly zero the result is
null with the inputs unchanged, otherwise each function is divided by its norm
(the computed number is interpolated back into the expression as a constant,
as the source does by string formatting).  The rest of the computation is
anglePhase2.  The try/catch of the source is not modelled: no operation of the
embedding throws, non-finite values propagate as values. -/
noncomputable def calculateAngle (f1 f2 : Expr) (isUnitary : Bool) (iv : ℝ × ℝ)
    (ensureAcute : Bool) : AngleResult :=
  if isUnitary = true then
    let n1 := normOf f1 iv.1 iv.2
    let n2 := normOf f2 iv.1 iv.2
    if JsNum.eqZero n1 ∨ JsNum.eqZero n2 then ⟨none, f1, f2⟩
    else anglePhase2 (Expr.div f1 (Expr.const n1)) (Expr.div f2 (Expr.const n2))
      iv.1 iv.2 ensureAcute
  else anglePhase2 f1 f2 iv.1 iv.2 ensureAcute

/-- The 100 evenly spaced sample points used by the magnitude-balancing
pre-pass of startNewRound (App.tsx lines 127-130). -/
noncomputable def sample100 (a b : ℝ) : List ℝ :=
  (List.range 100).map (fun (i : ℕ) => a + ((i : ℝ) / 99) * (b - a))

/-- The peak absolute value of the finite samples (App.tsx lines 134-135:
Math.max over the absolute values of the isFinite-filtered samples).  The base
of the fold is 0 rather than the -Infinity of an empty JavaScript Math.max:
the two agree whenever the result is compared against 0 with >, which is the
only use the source makes of it. -/
noncomputable def maxAbsFin (l : List JsNum) : ℝ :=
  ((l.filterMap JsNum.toFin).map (fun y => |y|)).foldr max 0

open Classical in
/-- The magnitude-balancing scaling pass of startNewRound (App.tsx lines
126-151): sample both functions at 100 points, and if both peak magnitudes are
positive and their ratio exceeds 5, multiply the smaller-magnitude function by
k = ceil(ratio / 5). -/
noncomputable def balancePair (f1 f2 : Expr) (a b : ℝ) : Expr × Expr :=
  let m1 := maxAbsFin ((sample100 a b).map (evalF f1))
  let m2 := maxAbsFin ((sample100 a b).map (evalF f2))
  if 0 < m1 ∧ 0 < m2 then
    let r := if m2 < m1 then m1 / m2 else m2 / m1
    if 5 < r then
      let k : ℕ := ⌈r / 5⌉₊
      if m2 < m1 then (f1, Expr.mul f2 (Expr.const (.fin k)))
      else (Expr.mul f1 (Expr.const (.fin k)), f2)
    else (f1, f2)
  else (f1, f2)

/-- The intervalLimit of getNewFunctions (gameLogic.ts line 108). -/
noncomputable def intervalLimit (a b : ℝ) : ℝ := max |a| |b|

/-- The asin primitive of the generator grammar, parameterised by the
interval limit (gameLogic.ts line 30). -/
noncomputable def asinPrimitive (limit : ℝ) : Expr :=
  Expr.app .asin (Expr.div .X (Expr.const (.fin limit)))

/-- The fixed primitive set of generateRandomFunction (gameLogic.ts lines
24-31). -/
noncomputable def baseFunctions (limit : ℝ) : List Expr :=
  [ .X, sqExpr .X, .pow .X (.const (.fin 3)), .pow .X (.const (.fin 4)),
    .app .sin .X, .app .cos .X, .app .exp .X, .app .tanh .X, .app .sinh .X,
    .app .atan .X,
    .div (.const (.fin 1)) (.add (sqExpr .X) (.const (.fin 1))),
    .app .cbrt .X, asinPrimitive limit ]

/-- The scoring formula of submitGuess (App.tsx lines 196-198):
score = 100 * max(0, 1 - |actual - guess| / 180)^3. -/
noncomputable def scoreGuess (actual guess : ℝ) : ℝ :=
  100 * max 0 (1 - |actual - guess| / 180) ^ 3

@[simp] theorem JsNum.add_fin (a b : ℝ) : JsNum.add (.fin a) (.fin b) = .fin (a + b) := rfl

@[simp] theorem JsNum.mul_fin (a b : ℝ) : JsNum.mul (.fin a) (.fin b) = .fin (a * b) := rfl

@[simp] theorem JsNum.neg_fin (a : ℝ) : JsNum.neg (.fin a) = .fin (-a) := rfl

@[simp] theorem JsNum.add_nan (x : JsNum) : JsNum.add x .nan = .nan := by
  cases x <;> rfl

@[simp] theorem JsNum.nan_add (x : JsNum) : JsNum.add .nan x = .nan := by
  cases x <;> rfl

@[simp] theorem JsNum.mul_nan (x : JsNum) : JsNum.mul x .nan = .nan := by
  cases x <;> rfl

@[simp] theorem JsNum.nan_mul (x : JsNum) : JsNum.mul .nan x = .nan := by
  cases x <;> rfl

@[simp] theorem JsNum.div_nan (x : JsNum) : JsNum.div x .nan = .nan := by
  cases x <;> rfl

@[simp] theorem JsNum.nan_div (x : JsNum) : JsNum.div .nan x = .nan := by
  cases x <;> rfl

@[simp] theorem JsNum.neg_nan : JsNum.neg .nan = .nan := rfl

@[simp] theorem JsNum.sqrt_nan : JsNum.sqrt .nan = .nan := rfl

@[simp] theorem JsNum.acos_nan : JsNum.acos .nan = .nan := rfl

@[simp] theorem JsNum.minJ_fin_nan (a : ℝ) : JsNum.minJ (.fin a) .nan = .nan := rfl

@[simp] theorem JsNum.maxJ_fin_nan (a : ℝ) : JsNum.maxJ (.fin a) .nan = .nan := rfl

@[simp] theorem JsNum.mul_nan_fin (c : ℝ) : JsNum.mul .nan (.fin c) = .nan := rfl

theorem JsNum.pow_fin_two (a : ℝ) : JsNum.pow (.fin a) (.fin 2) = .fin (a ^ 2) := by
  have h : ∃ m : ℤ, (2 : ℝ) = (m : ℝ) := ⟨2, by norm_num⟩
  rw [JsNum.pow, dif_pos h]
  have h2 : h.choose = 2 := by exact_mod_cast h.choose_spec.symm
  rw [h2, show ((2 : ℤ)) = ((2 : ℕ) : ℤ) from rfl, zpow_natCast]

theorem JsNum.mul_neg_right (x y : JsNum) :
    JsNum.mul x (JsNum.neg y) = JsNum.neg (JsNum.mul x y) := by
  cases x with
  | fin a =>
      cases y with
      | fin b => simp [JsNum.mul, JsNum.neg, mul_neg]
      | inf s =>
          simp only [JsNum.neg, JsNum.mul]
          by_cases h : a = 0
          · simp [h]
          · rcases lt_trichotomy a 0 with h1 | h1 | h1
            · simp [h, not_lt.mpr (le_of_lt h1), h1, JsNum.neg]
            · exact absurd h1 h
            · simp [h, h1, JsNum.neg]
      | nan => rfl
  | inf s =>
      cases y with
      | fin b =>
          simp only [JsNum.neg, JsNum.mul]
          by_cases h : b = 0
          · simp [h]
          · rcases lt_trichotomy b 0 with h1 | h1 | h1
            · simp [neg_eq_zero, h, not_lt.mpr (le_of_lt h1), h1, neg_pos.mpr h1, JsNum.neg]
            · exact absurd h1 h
            · simp [neg_eq_zero, h, h1, not_lt.mpr (le_of_lt (neg_neg_of_pos h1)), JsNum.neg]
      | inf t => cases s <;> cases t <;> rfl
      | nan => rfl
  | nan => cases y <;> rfl

theorem JsNum.add_neg_neg (x y : JsNum) :
    JsNum.add (JsNum.neg x) (JsNum.neg y) = JsNum.neg (JsNum.add x y) := by
  cases x with
  | fin a => cases y with
    | fin b => simp [JsNum.add, JsNum.neg]; ring
    | inf s => rfl
    | nan => rfl
  | inf s => cases y with
    | fin b => rfl
    | inf t => cases s <;> cases t <;> rfl
    | nan => rfl
  | nan => cases y <;> rfl

theorem JsNum.sqrt_shape (x : JsNum) :
    JsNum.sqrt x = .nan ∨ JsNum.sqrt x = .inf true ∨
      ∃ r : ℝ, 0 ≤ r ∧ JsNum.sqrt x = .fin r := by
  cases x with
  | fin a =>
      by_cases h : a < 0
      · left; simp [JsNum.sqrt, h]
      · right; right; exact ⟨Real.sqrt a, Real.sqrt_nonneg a, by simp [JsNum.sqrt, h]⟩
  | inf s =>
      cases s with
      | false => left; rfl
      | true => right; left; rfl
  | nan => left; rfl

theorem foldl_addJ_nan (l : List ℕ) (g : ℕ → JsNum) :
    l.foldl (fun s i => JsNum.add s (g i)) JsNum.nan = JsNum.nan := by
  induction l with
  | nil => rfl
  | cons a l ih => simpa [List.foldl_cons, JsNum.nan_add] using ih

theorem foldl_addJ_fin (l : List ℕ) (g : ℕ → ℝ) (c : ℝ) (init : ℝ) :
    l.foldl (fun s i => JsNum.add s (JsNum.mul (.fin c) (.fin (g i)))) (.fin init)
      = .fin (l.foldl (fun s i => s + c * g i) init) := by
  induction l generalizing init with
  | nil => rfl
  | cons a l ih =>
      rw [List.foldl_cons, List.foldl_cons]
      exact ih (init + c * g a)

theorem foldl_addJ_neg (l : List ℕ) (g : ℕ → JsNum) (c : ℝ) (acc : JsNum) :
    l.foldl (fun s i => JsNum.add s (JsNum.mul (.fin c) (JsNum.neg (g i)))) (JsNum.neg acc)
      = JsNum.neg (l.foldl (fun s i => JsNum.add s (JsNum.mul (.fin c) (g i))) acc) := by
  induction l generalizing acc with
  | nil => rfl
  | cons a l ih =>
      rw [List.foldl_cons, List.foldl_cons,
        show JsNum.add (JsNum.neg acc) (JsNum.mul (.fin c) (JsNum.neg (g a)))
          = JsNum.neg (JsNum.add acc (JsNum.mul (.fin c) (g a))) by
            rw [JsNum.mul_neg_right, JsNum.add_neg_neg]]
      exact ih (JsNum.add acc (JsNum.mul (.fin c) (g a)))

theorem simpsonF_nan (f : ℝ → JsNum) (a b : ℝ) (n : ℕ) (h : ∀ x, f x = .nan) :
    simpsonF f a b n = .nan := by
  simp only [simpsonF, h, JsNum.mul_nan, JsNum.nan_add]
  simp only [foldl_addJ_nan, JsNum.mul_nan]

theorem simpsonF_fin (f : ℝ → JsNum) (g : ℝ → ℝ) (a b : ℝ) (n : ℕ)
    (h : ∀ x, f x = .fin (g x)) :
    simpsonF f a b n = .fin (simpsonR g a b n) := by
  simp only [simpsonF, simpsonR, h, JsNum.add_fin]
  simp only [foldl_addJ_fin]
  simp only [JsNum.mul_fin]

theorem simpsonF_neg (f : ℝ → JsNum) (a b : ℝ) (n : ℕ) :
    simpsonF (fun x => JsNum.neg (f x)) a b n = JsNum.neg (simpsonF f a b n) := by
  simp only [simpsonF, JsNum.add_neg_neg]
  simp only [foldl_addJ_neg]
  simp only [JsNum.mul_neg_right]

theorem foldl_add_mul_sum (l : List ℕ) (g : ℕ → ℝ) (c : ℝ) (init : ℝ) :
    l.foldl (fun s i => s + c * g i) init = init + c * (l.map g).sum := by
  induction l generalizing init with
  | nil => simp
  | cons a l ih =>
      rw [List.foldl_cons, ih, List.map_cons, List.sum_cons]
      ring

/-- The natural-number inclusion into the reals, named so that sums over the
Simpson index lists elaborate without list coercions. -/
noncomputable def castR (i : ℕ) : ℝ := i

theorem map_quad_sum (l : List ℕ) (p r s : ℝ) :
    (l.map (fun i => p + r * castR i + s * castR i ^ 2)).sum
      = p * l.length + r * (l.map castR).sum + s * (l.map (fun i => castR i ^ 2)).sum := by
  induction l with
  | nil => simp
  | cons a l ih =>
      simp only [List.map_cons, List.sum_cons, List.length_cons, ih]
      push_cast
      ring

theorem simpOdd_succ (q : ℕ) : simpOdd (2 * (q + 1)) = simpOdd (2 * q) ++ [2 * q + 1] := by
  have h1 : ((2 * q) % 2 == 1) = false := by
    have e : (2 * q) % 2 = 0 := by omega
    simp [e]
  have h2 : ((2 * q + 1) % 2 == 1) = true := by
    have e : (2 * q + 1) % 2 = 1 := by omega
    simp [e]
  rw [show 2 * (q + 1) = (2 * q + 1) + 1 by ring]
  simp [simpOdd, List.range_succ, List.filter_append, h1, h2]

theorem simpEven_succ (q : ℕ) (hq : 1 ≤ q) :
    simpEven (2 * (q + 1)) = simpEven (2 * q) ++ [2 * q] := by
  obtain ⟨p, rfl⟩ : ∃ p, q = p + 1 := ⟨q - 1, by omega⟩
  have e1 : 2 * (p + 1 + 1) - 1 = (2 * p + 1) + 1 + 1 := by omega
  have e2 : 2 * (p + 1) - 1 = 2 * p + 1 := by omega
  have hb : ((2 * p + 1) % 2 == 0) = false := by
    have e : (2 * p + 1) % 2 = 1 := by omega
    simp [e]
  have h1 : (decide (2 ≤ 2 * p + 1) && ((2 * p + 1) % 2 == 0)) = false := by
    rw [hb, Bool.and_false]
  have h2 : (decide (2 ≤ 2 * p + 2) && ((2 * p + 2) % 2 == 0)) = true := by
    have e : (2 * p + 2) % 2 = 0 := by omega
    have e3 : 2 ≤ 2 * p + 2 := by omega
    simp [e, e3]
  rw [simpEven, simpEven, e1, e2]
  simp only [List.range_succ, List.filter_append]
  simp [h1, h2, show 2 * (p + 1) = 2 * p + 2 by ring]
  omega

theorem simpOdd_len (q : ℕ) : ((simpOdd (2 * q)).length : ℝ) = q := by
  induction q with
  | zero => rfl
  | succ p ih =>
      rw [simpOdd_succ, List.length_append, List.length_singleton]
      push_cast [ih]
      ring

theorem simpOdd_s1 (q : ℕ) :
    ((simpOdd (2 * q)).map castR).sum = (q : ℝ) ^ 2 := by
  induction q with
  | zero => simp [simpOdd]
  | succ p ih =>
      rw [simpOdd_succ, List.map_append, List.sum_append, ih]
      simp [castR]
      ring

theorem simpOdd_s2 (q : ℕ) :
    ((simpOdd (2 * q)).map (fun i => castR i ^ 2)).sum = (4 * (q : ℝ) ^ 3 - q) / 3 := by
  induction q with
  | zero => simp [simpOdd]
  | succ p ih =>
      rw [simpOdd_succ, List.map_append, List.sum_append, ih]
      simp [castR]
      ring

theorem simpEven_two : simpEven 2 = [] := rfl

theorem simpEven_len (q : ℕ) (hq : 1 ≤ q) :
    ((simpEven (2 * q)).length : ℝ) = (q : ℝ) - 1 := by
  induction q with
  | zero => omega
  | succ p ih =>
      rcases Nat.eq_zero_or_pos p with h | h
      · subst h; simp [simpEven_two]
      · rw [simpEven_succ p h, List.length_append, List.length_singleton]
        push_cast [ih h]
        ring

theorem simpEven_s1 (q : ℕ) :
    ((simpEven (2 * q)).map castR).sum = (q : ℝ) ^ 2 - q := by
  induction q with
  | zero => simp [simpEven]
  | succ p ih =>
      rcases Nat.eq_zero_or_pos p with h | h
      · subst h; simp [simpEven_two]
      · rw [simpEven_succ p h, List.map_append, List.sum_append, ih]
        simp [castR]
        ring

theorem simpEven_s2 (q : ℕ) :
    ((simpEven (2 * q)).map (fun i => castR i ^ 2)).sum
      = (4 * (q : ℝ) ^ 3 - 6 * (q : ℝ) ^ 2 + 2 * q) / 3 := by
  induction q with
  | zero => simp [simpEven]
  | succ p ih =>
      rcases Nat.eq_zero_or_pos p with h | h
      · subst h; simp [simpEven_two]; norm_num
      · rw [simpEven_succ p h, List.map_append, List.sum_append, ih]
        simp [castR]
        ring


theorem simpsonN_eq_two_mul (n : ℕ) (hn : 0 < n) : ∃ q, 1 ≤ q ∧ simpsonN n = 2 * q := by
  refine ⟨simpsonN n / 2, ?_, ?_⟩ <;> (unfold simpsonN; split <;> omega)

theorem foldl_smul (l : List ℕ) (g : ℕ → ℝ) (c k init : ℝ) :
    l.foldl (fun s i => s + k * (c * g i)) (c * init)
      = c * l.foldl (fun s i => s + k * g i) init := by
  induction l generalizing init with
  | nil => rfl
  | cons a l ih =>
      rw [List.foldl_cons, List.foldl_cons,
        show c * init + k * (c * g a) = c * (init + k * g a) by ring]
      exact ih (init + k * g a)

theorem foldl_id (l : List ℕ) (init : ℝ) : l.foldl (fun s _ => s) init = init := by
  induction l generalizing init with
  | nil => rfl
  | cons a l ih => rw [List.foldl_cons]; exact ih init

theorem map_const_sum (l : List ℕ) (c : ℝ) :
    (l.map (fun _ => c)).sum = (l.length : ℝ) * c := by
  induction l with
  | nil => simp
  | cons a l ih => simp [ih]; ring

theorem simpsonR_zero (a b : ℝ) (n : ℕ) : simpsonR (fun _ => (0 : ℝ)) a b n = 0 := by
  simp only [simpsonR, mul_zero, add_zero, zero_add, foldl_id]

theorem simpsonR_const (c a b : ℝ) (n : ℕ) (hn : 0 < n) :
    simpsonR (fun _ => c) a b n = (b - a) * c := by
  obtain ⟨q, hq, hm⟩ := simpsonN_eq_two_mul n hn
  have hQ : ((q : ℝ)) ≠ 0 := Nat.cast_ne_zero.mpr (by omega)
  simp only [simpsonR, hm]
  simp only [foldl_add_mul_sum]
  rw [map_const_sum, map_const_sum, simpOdd_len, simpEven_len q hq]
  push_cast
  field_simp
  ring

theorem simpsonR_smul (f : ℝ → ℝ) (c a b : ℝ) (n : ℕ) :
    simpsonR (fun x => c * f x) a b n = c * simpsonR f a b n := by
  simp only [simpsonR]
  rw [show c * f a + c * f b = c * (f a + f b) by ring]
  rw [foldl_smul, foldl_smul]
  ring

theorem simpsonR_sq (a b : ℝ) (q : ℕ) (hq : 1 ≤ q) :
    simpsonR (fun x => x ^ 2) a b (2 * q) = (b ^ 3 - a ^ 3) / 3 := by
  have hm : simpsonN (2 * q) = 2 * q := by
    have e : (2 * q) % 2 = 0 := by omega
    simp [simpsonN, e]
  have hQ : ((q : ℝ)) ≠ 0 := Nat.cast_ne_zero.mpr (by omega)
  have hg : (fun i : ℕ => (a + (i : ℝ) * ((b - a) / ((2 * q : ℕ) : ℝ))) ^ 2)
      = (fun i : ℕ => a ^ 2 + (2 * a * ((b - a) / ((2 * q : ℕ) : ℝ))) * castR i
          + ((b - a) / ((2 * q : ℕ) : ℝ)) ^ 2 * castR i ^ 2) := by
    funext i
    simp only [castR]
    ring
  simp only [simpsonR, hm]
  simp only [foldl_add_mul_sum]
  rw [hg, map_quad_sum, map_quad_sum, simpOdd_len, simpOdd_s1, simpOdd_s2,
    simpEven_len q hq, simpEven_s1, simpEven_s2]
  push_cast
  field_simp
  ring

theorem JsNum.sqrt_fin (a : ℝ) :
    JsNum.sqrt (.fin a) = if a < 0 then .nan else .fin (Real.sqrt a) := rfl

theorem JsNum.div_fin (a b : ℝ) :
    JsNum.div (.fin a) (.fin b)
      = if b = 0 then (if a = 0 then .nan else .inf (decide (0 < a))) else .fin (a / b) := rfl

@[simp] theorem JsNum.minJ_fin (a b : ℝ) : JsNum.minJ (.fin a) (.fin b) = .fin (min a b) := rfl

@[simp] theorem JsNum.maxJ_fin (a b : ℝ) : JsNum.maxJ (.fin a) (.fin b) = .fin (max a b) := rfl

theorem JsNum.acos_fin (a : ℝ) :
    JsNum.acos (.fin a) = if a < -1 ∨ 1 < a then .nan else .fin (Real.arccos a) := rfl

@[simp] theorem JsNum.eqZero_fin (a : ℝ) : JsNum.eqZero (.fin a) = (a = 0) := rfl

@[simp] theorem JsNum.eqZero_nan : JsNum.eqZero .nan = False := rfl

@[simp] theorem JsNum.eqZero_inf (s : Bool) : JsNum.eqZero (.inf s) = False := rfl

@[simp] theorem JsNum.ltZero_fin (a : ℝ) : JsNum.ltZero (.fin a) = (a < 0) := rfl

@[simp] theorem JsNum.ltZero_nan : JsNum.ltZero .nan = False := rfl

@[simp] theorem JsNum.nonneg_fin (a : ℝ) : JsNum.nonneg (.fin a) = (0 ≤ a) := rfl

@[simp] theorem JsNum.nonneg_inf (s : Bool) : JsNum.nonneg (.inf s) = (s = true) := rfl

@[simp] theorem JsNum.nonneg_nan : JsNum.nonneg .nan = False := rfl

theorem simpson_sq_eval (e : Expr) (ev : ℝ → ℝ) (hev : ∀ x, evalF e x = .fin (ev x))
    (hsq : ∀ x : ℝ, ev x ^ 2 = x ^ 2) :
    simpsonF (evalF (sqExpr e)) (-1) 1 200 = .fin (2 / 3) := by
  have h : ∀ x, evalF (sqExpr e) x = .fin (x ^ 2) := by
    intro x
    show JsNum.pow (evalF e x) (.fin 2) = _
    rw [hev x, JsNum.pow_fin_two, hsq]
  rw [simpsonF_fin _ (fun x => x ^ 2) _ _ _ h,
    show (200 : ℕ) = 2 * 100 from rfl, simpsonR_sq (-1) 1 100 (by norm_num)]
  norm_num

theorem simpson_sq_X : simpsonF (evalF (sqExpr .X)) (-1) 1 200 = .fin (2 / 3) :=
  simpson_sq_eval .X (fun x => x) (fun _ => rfl) (fun _ => rfl)

theorem simpson_sq_negX : simpsonF (evalF (sqExpr (.neg .X))) (-1) 1 200 = .fin (2 / 3) :=
  simpson_sq_eval (.neg .X) (fun x => -x) (fun _ => rfl) (fun x => by ring)

theorem simpson_sq_negnegX :
    simpsonF (evalF (sqExpr (.neg (.neg .X)))) (-1) 1 200 = .fin (2 / 3) :=
  simpson_sq_eval (.neg (.neg .X)) (fun x => - -x) (fun _ => rfl) (fun x => by ring)

theorem simpson_ip_X_negX :
    simpsonF (evalF (Expr.mul .X (.neg .X))) (-1) 1 200 = .fin (-(2 / 3)) := by
  have h : ∀ x : ℝ, evalF (Expr.mul .X (.neg .X)) x = .fin ((-1) * x ^ 2) := by
    intro x
    show JsNum.fin (x * -x) = _
    rw [show x * -x = (-1) * x ^ 2 by ring]
  rw [simpsonF_fin _ (fun x => (-1) * x ^ 2) _ _ _ h, simpsonR_smul,
    show (200 : ℕ) = 2 * 100 from rfl, simpsonR_sq (-1) 1 100 (by norm_num)]
  norm_num

theorem sqrt23_pos : (0 : ℝ) < Real.sqrt (2 / 3) := Real.sqrt_pos.mpr (by norm_num)

theorem normOf_X : normOf .X (-1) 1 = .fin (Real.sqrt (2 / 3)) := by
  rw [normOf, simpson_sq_X, JsNum.sqrt_fin, if_neg (by norm_num)]

theorem normOf_negX : normOf (.neg .X) (-1) 1 = .fin (Real.sqrt (2 / 3)) := by
  rw [normOf, simpson_sq_negX, JsNum.sqrt_fin, if_neg (by norm_num)]

theorem normOf_negnegX : normOf (.neg (.neg .X)) (-1) 1 = .fin (Real.sqrt (2 / 3)) := by
  rw [normOf, simpson_sq_negnegX, JsNum.sqrt_fin, if_neg (by norm_num)]

open Classical

theorem anglePhase2_X_negX_obtuse :
    anglePhase2 .X (.neg .X) (-1) 1 false = ⟨some (.fin 180), .X, .neg .X⟩ := by
  have hss : Real.sqrt (2 / 3) * Real.sqrt (2 / 3) = (2 / 3 : ℝ) :=
    Real.mul_self_sqrt (by norm_num)
  have hc : ¬((false = true) ∧ JsNum.ltZero (JsNum.fin (-(2 / 3)))) := by simp
  have hz : ¬(JsNum.eqZero (JsNum.fin (Real.sqrt (2 / 3)))
      ∨ JsNum.eqZero (JsNum.fin (Real.sqrt (2 / 3)))) := by
    simp [ne_of_gt sqrt23_pos]
  have hpi : Real.pi * (180 / Real.pi) = 180 := by
    field_simp
  simp only [anglePhase2, simpson_ip_X_negX, hc, if_false, normOf_X, normOf_negX, hz,
    JsNum.mul_fin, hss, JsNum.div_fin]
  rw [if_neg (by norm_num : ¬((2 : ℝ) / 3 = 0))]
  rw [show (-(2 / 3) / (2 / 3) : ℝ) = -1 by norm_num]
  simp only [JsNum.minJ_fin, JsNum.maxJ_fin]
  rw [show min (1 : ℝ) (-1) = -1 by norm_num, show max (-1 : ℝ) (-1) = -1 by norm_num]
  rw [JsNum.acos_fin, if_neg (by norm_num), Real.arccos_neg_one, JsNum.mul_fin, hpi]

theorem anglePhase2_X_negX_acute :
    anglePhase2 .X (.neg .X) (-1) 1 true = ⟨some (.fin 0), .X, .neg (.neg .X)⟩ := by
  have hss : Real.sqrt (2 / 3) * Real.sqrt (2 / 3) = (2 / 3 : ℝ) :=
    Real.mul_self_sqrt (by norm_num)
  have hc : ((true = true) ∧ JsNum.ltZero (JsNum.fin (-(2 / 3)))) := by
    refine ⟨rfl, ?_⟩
    simp only [JsNum.ltZero_fin]
    norm_num
  have hz : ¬(JsNum.eqZero (JsNum.fin (Real.sqrt (2 / 3)))
      ∨ JsNum.eqZero (JsNum.fin (Real.sqrt (2 / 3)))) := by
    simp [ne_of_gt sqrt23_pos]
  simp only [anglePhase2, simpson_ip_X_negX, hc, and_self, if_true, normOf_X,
    normOf_negnegX, hz, JsNum.neg_fin, JsNum.mul_fin, hss, JsNum.div_fin]
  rw [if_neg (by norm_num : ¬((2 : ℝ) / 3 = 0))]
  rw [show (- -(2 / 3) / (2 / 3) : ℝ) = 1 by norm_num]
  simp only [JsNum.minJ_fin, JsNum.maxJ_fin]
  rw [show min (1 : ℝ) (1 : ℝ) = 1 by norm_num, show max (-1 : ℝ) (1 : ℝ) = 1 by norm_num]
  rw [JsNum.acos_fin, if_neg (show ¬((1 : ℝ) < -1 ∨ (1 : ℝ) < 1) by norm_num),
    Real.arccos_one, JsNum.mul_fin, zero_mul, if_neg not_false]

theorem calculateAngle_unfold_false (f1 f2 : Expr) (iv : ℝ × ℝ) (ea : Bool) :
    calculateAngle f1 f2 false iv ea = anglePhase2 f1 f2 iv.1 iv.2 ea := by
  rw [calculateAngle, if_neg (by simp)]

theorem mul_norms_shape (n1 n2 : JsNum)
    (h1 : n1 = .nan ∨ n1 = .inf true ∨ ∃ r, 0 ≤ r ∧ n1 = .fin r)
    (h2 : n2 = .nan ∨ n2 = .inf true ∨ ∃ r, 0 ≤ r ∧ n2 = .fin r)
    (hz1 : ¬JsNum.eqZero n1) (hz2 : ¬JsNum.eqZero n2) :
    JsNum.mul n1 n2 = .nan ∨ JsNum.mul n1 n2 = .inf true ∨
      ∃ r, 0 < r ∧ JsNum.mul n1 n2 = .fin r := by
  rcases h1 with h1 | h1 | ⟨r, hr, h1⟩ <;> subst h1
  · left; exact JsNum.nan_mul n2
  · rcases h2 with h2 | h2 | ⟨r', hr', h2⟩ <;> subst h2
    · left; rfl
    · right; left; rfl
    · have hne : r' ≠ 0 := fun h => hz2 (by simp [h])
      have hpos : 0 < r' := lt_of_le_of_ne hr' (Ne.symm hne)
      right; left
      show (if r' = 0 then JsNum.nan else if 0 < r' then JsNum.inf true
        else JsNum.inf (!true)) = JsNum.inf true
      rw [if_neg hne, if_pos hpos]
  · have hne : r ≠ 0 := fun h => hz1 (by simp [h])
    have hpos : 0 < r := lt_of_le_of_ne hr (Ne.symm hne)
    rcases h2 with h2 | h2 | ⟨r', hr', h2⟩ <;> subst h2
    · left; exact JsNum.mul_nan _
    · right; left
      show (if r = 0 then JsNum.nan else if 0 < r then JsNum.inf true
        else JsNum.inf (!true)) = JsNum.inf true
      rw [if_neg hne, if_pos hpos]
    · have hne2 : r' ≠ 0 := fun h => hz2 (by simp [h])
      have hpos2 : 0 < r' := lt_of_le_of_ne hr' (Ne.symm hne2)
      right; right
      exact ⟨r * r', mul_pos hpos hpos2, rfl⟩

theorem div_acute_shape (ip M : JsNum)
    (hip : ip = .nan ∨ JsNum.nonneg ip)
    (hM : M = .nan ∨ M = .inf true ∨ ∃ r, 0 < r ∧ M = .fin r) :
    JsNum.div ip M = .nan ∨ JsNum.nonneg (JsNum.div ip M) := by
  rcases hip with hip | hip
  · subst hip; left; exact JsNum.nan_div M
  · cases ip with
    | fin w =>
        have hw : 0 ≤ w := hip
        rcases hM with hM | hM | ⟨r, hr, hM⟩ <;> subst hM
        · left; exact JsNum.div_nan _
        · right; show JsNum.nonneg (.fin 0); simp
        · right
          rw [JsNum.div_fin, if_neg (ne_of_gt hr)]
          simpa using div_nonneg hw (le_of_lt hr)
    | inf s =>
        have hs : s = true := hip
        subst hs
        rcases hM with hM | hM | ⟨r, hr, hM⟩ <;> subst hM
        · left; rfl
        · left; rfl
        · right
          show JsNum.nonneg (if r = 0 then JsNum.inf true else if 0 < r then JsNum.inf true
            else JsNum.inf (!true))
          rw [if_neg (ne_of_gt hr), if_pos hr]
          simp
    | nan => simp at hip

theorem clamp_shape (c : JsNum) :
    (c = .nan ∧ JsNum.maxJ (.fin (-1)) (JsNum.minJ (.fin 1) c) = .nan) ∨
    ∃ v : ℝ, -1 ≤ v ∧ v ≤ 1 ∧ (JsNum.nonneg c → 0 ≤ v) ∧
      JsNum.maxJ (.fin (-1)) (JsNum.minJ (.fin 1) c) = .fin v := by
  cases c with
  | fin u =>
      right
      refine ⟨max (-1) (min 1 u), le_max_left _ _, ?_, ?_, by simp⟩
      · exact max_le (by norm_num) (min_le_left _ _)
      · intro h
        have hu : 0 ≤ u := h
        have : 0 ≤ min 1 u := le_min (by norm_num) hu
        exact le_trans this (le_max_right _ _)
  | inf s =>
      cases s with
      | true =>
          right
          refine ⟨1, by norm_num, le_refl 1, fun _ => by norm_num, ?_⟩
          show JsNum.fin (max (-1) 1) = .fin 1
          rw [max_eq_right (by norm_num : (-1 : ℝ) ≤ 1)]
      | false =>
          right
          exact ⟨-1, le_refl _, by norm_num, fun h => by simp at h, rfl⟩
  | nan => left; exact ⟨rfl, rfl⟩

theorem angle_from_clamp (v : ℝ) (h1 : -1 ≤ v) (h2 : v ≤ 1) :
    ∃ θ, JsNum.mul (JsNum.acos (.fin v)) (.fin (180 / Real.pi)) = .fin θ ∧
      0 ≤ θ ∧ θ ≤ 180 ∧ (0 ≤ v → θ ≤ 90) := by
  have hdom : ¬(v < -1 ∨ 1 < v) := by
    push_neg
    exact ⟨h1, h2⟩
  have hdeg : (0 : ℝ) ≤ 180 / Real.pi := by positivity
  refine ⟨Real.arccos v * (180 / Real.pi), ?_, ?_, ?_, ?_⟩
  · rw [JsNum.acos_fin, if_neg hdom, JsNum.mul_fin]
  · exact mul_nonneg (Real.arccos_nonneg v) hdeg
  · calc Real.arccos v * (180 / Real.pi)
        ≤ Real.pi * (180 / Real.pi) := by
          exact mul_le_mul_of_nonneg_right (Real.arccos_le_pi v) hdeg
      _ = 180 := by field_simp
  · intro hv
    calc Real.arccos v * (180 / Real.pi)
        ≤ (Real.pi / 2) * (180 / Real.pi) := by
          exact mul_le_mul_of_nonneg_right (Real.arccos_le_pi_div_two.mpr hv) hdeg
      _ = 90 := by
          field_simp
          ring

theorem normOf_shape (f : Expr) (a b : ℝ) :
    normOf f a b = .nan ∨ normOf f a b = .inf true ∨ ∃ r, 0 ≤ r ∧ normOf f a b = .fin r :=
  JsNum.sqrt_shape (simpsonF (evalF (sqExpr f)) a b 200)

theorem tail_range (f1 f2a : Expr) (IP : JsNum) (a b : ℝ) (ea : Bool) (res : AngleResult)
    (hres : res = if JsNum.eqZero (normOf f1 a b) ∨ JsNum.eqZero (normOf f2a a b) then
        ⟨none, f1, f2a⟩
      else ⟨some (JsNum.mul (JsNum.acos (JsNum.maxJ (.fin (-1)) (JsNum.minJ (.fin 1)
          (JsNum.div IP (JsNum.mul (normOf f1 a b) (normOf f2a a b)))))) (.fin (180 / Real.pi))),
          f1, f2a⟩)
    (hacute : ea = true → IP = .nan ∨ JsNum.nonneg IP) :
    res.angle = none ∨ res.angle = some .nan ∨
      ∃ θ : ℝ, res.angle = some (.fin θ) ∧ 0 ≤ θ ∧ θ ≤ 180 ∧ (ea = true → θ ≤ 90) := by
  by_cases hz : JsNum.eqZero (normOf f1 a b) ∨ JsNum.eqZero (normOf f2a a b)
  · rw [if_pos hz] at hres
    left
    rw [hres]
  · rw [if_neg hz] at hres
    push_neg at hz
    have hM := mul_norms_shape (normOf f1 a b) (normOf f2a a b)
      (normOf_shape f1 a b) (normOf_shape f2a a b) hz.1 hz.2
    rcases clamp_shape (JsNum.div IP (JsNum.mul (normOf f1 a b) (normOf f2a a b))) with
      ⟨hcnan, hclamp⟩ | ⟨v, hv1, hv2, hvnn, hclamp⟩
    · right; left
      rw [hres]
      show some _ = some JsNum.nan
      rw [hclamp, JsNum.acos_nan, JsNum.nan_mul]
    · obtain ⟨θ, hθeq, hθ0, hθ180, hθ90⟩ := angle_from_clamp v hv1 hv2
      right; right
      refine ⟨θ, ?_, hθ0, hθ180, ?_⟩
      · rw [hres]
        show some _ = some (JsNum.fin θ)
        rw [hclamp, hθeq]
      · intro hea
        refine hθ90 (hvnn ?_)
        rcases div_acute_shape IP (JsNum.mul (normOf f1 a b) (normOf f2a a b))
          (hacute hea) hM with hnan | hnn
        · rw [hnan] at hclamp
          simp [JsNum.minJ_fin_nan, JsNum.maxJ_fin_nan] at hclamp
        · exact hnn

theorem anglePhase2_range (f1 f2 : Expr) (a b : ℝ) (ea : Bool) :
    (anglePhase2 f1 f2 a b ea).angle = none ∨
    (anglePhase2 f1 f2 a b ea).angle = some .nan ∨
    ∃ θ : ℝ, (anglePhase2 f1 f2 a b ea).angle = some (.fin θ) ∧
      0 ≤ θ ∧ θ ≤ 180 ∧ (ea = true → θ ≤ 90) := by
  by_cases hf : (ea = true) ∧ JsNum.ltZero (simpsonF (evalF (Expr.mul f1 f2)) a b 200)
  · have hres : anglePhase2 f1 f2 a b ea
        = if JsNum.eqZero (normOf f1 a b) ∨ JsNum.eqZero (normOf (.neg f2) a b) then
            ⟨none, f1, .neg f2⟩
          else ⟨some (JsNum.mul (JsNum.acos (JsNum.maxJ (.fin (-1)) (JsNum.minJ (.fin 1)
              (JsNum.div (JsNum.neg (simpsonF (evalF (Expr.mul f1 f2)) a b 200))
                (JsNum.mul (normOf f1 a b) (normOf (.neg f2) a b)))))) (.fin (180 / Real.pi))),
              f1, .neg f2⟩ := by
      simp only [anglePhase2, if_pos hf]
    refine tail_range f1 (.neg f2) _ a b ea _ hres ?_
    intro _
    cases hip : simpsonF (evalF (Expr.mul f1 f2)) a b 200 with
    | fin w =>
        right
        rw [hip] at hf
        have hw : w < 0 := hf.2
        show JsNum.nonneg (.fin (-w))
        simp
        linarith
    | inf s =>
        right
        rw [hip] at hf
        have hs : s = false := hf.2
        subst hs
        show JsNum.nonneg (.inf true)
        simp
    | nan =>
        rw [hip] at hf
        exact absurd hf.2 (by simp)
  · have hres : anglePhase2 f1 f2 a b ea
        = if JsNum.eqZero (normOf f1 a b) ∨ JsNum.eqZero (normOf f2 a b) then
            ⟨none, f1, f2⟩
          else ⟨some (JsNum.mul (JsNum.acos (JsNum.maxJ (.fin (-1)) (JsNum.minJ (.fin 1)
              (JsNum.div (simpsonF (evalF (Expr.mul f1 f2)) a b 200)
                (JsNum.mul (normOf f1 a b) (normOf f2 a b)))))) (.fin (180 / Real.pi))),
              f1, f2⟩ := by
      simp only [anglePhase2, if_neg hf]
    refine tail_range f1 f2 _ a b ea _ hres ?_
    intro hea
    cases hip : simpsonF (evalF (Expr.mul f1 f2)) a b 200 with
    | fin w =>
        right
        have hw : ¬(w < 0) := by
          intro hw
          exact hf ⟨hea, by rw [hip]; exact hw⟩
        simp
        linarith
    | inf s =>
        cases s with
        | true => right; simp
        | false =>
            exact absurd ⟨hea, by rw [hip]; rfl⟩ hf
    | nan => left; rfl

theorem evalF_zeroDivZero (x : ℝ) :
    evalF (Expr.div (.const (.fin 0)) (.const (.fin 0))) x = .nan := by
  show JsNum.div (.fin 0) (.fin 0) = .nan
  rw [JsNum.div_fin, if_pos rfl, if_pos rfl]

theorem evalF_mul_zz_X (x : ℝ) :
    evalF (Expr.mul (Expr.div (.const (.fin 0)) (.const (.fin 0))) .X) x = .nan := by
  show JsNum.mul (evalF (Expr.div (.const (.fin 0)) (.const (.fin 0))) x) (.fin x) = .nan
  rw [evalF_zeroDivZero, JsNum.nan_mul]

theorem evalF_sq_zz (x : ℝ) :
    evalF (sqExpr (Expr.div (.const (.fin 0)) (.const (.fin 0)))) x = .nan := by
  show JsNum.pow (evalF (Expr.div (.const (.fin 0)) (.const (.fin 0))) x) (.fin 2) = .nan
  rw [evalF_zeroDivZero]
  rfl

theorem normOf_zz : normOf (Expr.div (.const (.fin 0)) (.const (.fin 0))) (-1) 1 = .nan := by
  rw [normOf, simpsonF_nan _ _ _ _ evalF_sq_zz]
  rfl

theorem anglePhase2_zz_X (ea : Bool) :
    anglePhase2 (Expr.div (.const (.fin 0)) (.const (.fin 0))) .X (-1) 1 ea
      = ⟨some .nan, Expr.div (.const (.fin 0)) (.const (.fin 0)), .X⟩ := by
  have hip : simpsonF (evalF (Expr.mul (Expr.div (.const (.fin 0)) (.const (.fin 0))) .X))
      (-1) 1 200 = .nan := simpsonF_nan _ _ _ _ evalF_mul_zz_X
  have hflip : ¬((ea = true) ∧ JsNum.ltZero JsNum.nan) := by simp
  simp only [anglePhase2, hip, hflip, if_false, normOf_zz, normOf_X,
    JsNum.eqZero_nan, false_or, JsNum.eqZero_fin, ne_of_gt sqrt23_pos, or_false,
    JsNum.nan_mul, JsNum.nan_div, JsNum.minJ_fin_nan, JsNum.maxJ_fin_nan,
    JsNum.acos_nan]

set_option maxRecDepth 4000 in
theorem anglePhase2_acute_ip (f1 f2 : Expr) (a b θ : ℝ)
    (h : (anglePhase2 f1 f2 a b true).angle = some (.fin θ)) :
    JsNum.nonneg (simpsonF (evalF (Expr.mul (anglePhase2 f1 f2 a b true).f1_final
        (anglePhase2 f1 f2 a b true).f2_final)) a b 200) := by
  by_cases hl : JsNum.ltZero (simpsonF (evalF (Expr.mul f1 f2)) a b 200)
  · have hres : anglePhase2 f1 f2 a b true
        = if JsNum.eqZero (normOf f1 a b) ∨ JsNum.eqZero (normOf (.neg f2) a b) then
            ⟨none, f1, .neg f2⟩
          else ⟨some (JsNum.mul (JsNum.acos (JsNum.maxJ (.fin (-1)) (JsNum.minJ (.fin 1)
              (JsNum.div (JsNum.neg (simpsonF (evalF (Expr.mul f1 f2)) a b 200))
                (JsNum.mul (normOf f1 a b) (normOf (.neg f2) a b)))))) (.fin (180 / Real.pi))),
              f1, .neg f2⟩ := by
      simp only [anglePhase2, true_and, if_pos hl]
    have hf1 : (anglePhase2 f1 f2 a b true).f1_final = f1 := by
      rw [hres]; split <;> rfl
    have hf2 : (anglePhase2 f1 f2 a b true).f2_final = .neg f2 := by
      rw [hres]; split <;> rfl
    rw [hf1, hf2]
    have hneg : evalF (Expr.mul f1 (.neg f2))
        = fun x => JsNum.neg (evalF (Expr.mul f1 f2) x) := by
      funext x
      show JsNum.mul (evalF f1 x) (JsNum.neg (evalF f2 x)) = _
      exact JsNum.mul_neg_right _ _
    rw [hneg, simpsonF_neg]
    cases hip : simpsonF (evalF (Expr.mul f1 f2)) a b 200 with
    | fin w =>
        rw [hip] at hl
        have hw : w < 0 := hl
        show JsNum.nonneg (.fin (-w))
        simp
        linarith
    | inf s =>
        rw [hip] at hl
        have hs : s = false := hl
        subst hs
        show JsNum.nonneg (.inf true)
        simp
    | nan =>
        rw [hip] at hl
        exact absurd hl (by simp)
  · have hres : anglePhase2 f1 f2 a b true
        = if JsNum.eqZero (normOf f1 a b) ∨ JsNum.eqZero (normOf f2 a b) then
            ⟨none, f1, f2⟩
          else ⟨some (JsNum.mul (JsNum.acos (JsNum.maxJ (.fin (-1)) (JsNum.minJ (.fin 1)
              (JsNum.div (simpsonF (evalF (Expr.mul f1 f2)) a b 200)
                (JsNum.mul (normOf f1 a b) (normOf f2 a b)))))) (.fin (180 / Real.pi))),
              f1, f2⟩ := by
      simp only [anglePhase2, true_and, if_neg hl]
    have hf1 : (anglePhase2 f1 f2 a b true).f1_final = f1 := by
      rw [hres]; split <;> rfl
    have hf2 : (anglePhase2 f1 f2 a b true).f2_final = f2 := by
      rw [hres]; split <;> rfl
    rw [hf1, hf2]
    cases hip : simpsonF (evalF (Expr.mul f1 f2)) a b 200 with
    | fin w =>
        rw [hip] at hl
        have hw : ¬(w < 0) := hl
        simp
        linarith
    | inf s =>
        cases s with
        | true => simp
        | false =>
            rw [hip] at hl
            exact absurd rfl hl
    | nan =>
        exfalso
        rw [hres, hip] at h
        by_cases hz : JsNum.eqZero (normOf f1 a b) ∨ JsNum.eqZero (normOf f2 a b)
        · rw [if_pos hz] at h
          simp at h
        · rw [if_neg hz] at h
          rw [JsNum.nan_div, JsNum.minJ_fin_nan, JsNum.maxJ_fin_nan,
            JsNum.acos_nan, JsNum.nan_mul] at h
          simp at h

set_option maxRecDepth 8000

/-- C1 (counterexample): calculateAngle can return NaN to the caller.  With
f1 = 0/0 (a constant expression whose evaluation is NaN at every point),
f2 = x, the interval [-1,1] and both flags false, every intermediate
(inner product, norm of f1, cosine) is NaN, both zero-norm checks pass
(NaN === 0 is false), and the returned angle is NaN rather than Null --
refuting the claim that a non-finite intermediate always yields Null and
that no NaN reaches the caller. -/
theorem C1_counterexample :
    calculateAngle (Expr.div (.const (.fin 0)) (.const (.fin 0))) .X false (-1, 1) false
      = ⟨some JsNum.nan, Expr.div (.const (.fin 0)) (.const (.fin 0)), .X⟩ ∧
    (calculateAngle (Expr.div (.const (.fin 0)) (.const (.fin 0))) .X false (-1, 1) false).angle
      ≠ none := by
  have h : calculateAngle (Expr.div (.const (.fin 0)) (.const (.fin 0))) .X false (-1, 1) false
      = ⟨some JsNum.nan, Expr.div (.const (.fin 0)) (.const (.fin 0)), .X⟩ := by
    rw [calculateAngle_unfold_false]
    exact anglePhase2_zz_X false
  refine ⟨h, ?_⟩
  rw [h]
  simp

/-- C1 (amended): calculateAngle returns Null, or a NaN angle (when a
non-finite intermediate value propagated through the computation), or a
finite angle in [0,180] degrees, which lies in [0,90] when ensureAcute is
true.  The original claim is amended only in that NaN angles are possible:
the code has no finiteness check, so NaN propagates to the returned angle
instead of producing Null. -/
theorem C1_amended (f1 f2 : Expr) (iu ea : Bool) (iv : ℝ × ℝ) :
    (calculateAngle f1 f2 iu iv ea).angle = none ∨
    (calculateAngle f1 f2 iu iv ea).angle = some JsNum.nan ∨
    ∃ θ : ℝ, (calculateAngle f1 f2 iu iv ea).angle = some (.fin θ) ∧
      0 ≤ θ ∧ θ ≤ 180 ∧ (ea = true → θ ≤ 90) := by
  cases iu with
  | false =>
      rw [calculateAngle_unfold_false]
      exact anglePhase2_range f1 f2 iv.1 iv.2 ea
  | true =>
      by_cases hz : JsNum.eqZero (normOf f1 iv.1 iv.2) ∨ JsNum.eqZero (normOf f2 iv.1 iv.2)
      · have hres : calculateAngle f1 f2 true iv ea = ⟨none, f1, f2⟩ := by
          simp only [calculateAngle, if_pos hz, eq_self_iff_true, if_true]
        rw [hres]
        left
        rfl
      · have hres : calculateAngle f1 f2 true iv ea
            = anglePhase2 (Expr.div f1 (.const (normOf f1 iv.1 iv.2)))
                (Expr.div f2 (.const (normOf f2 iv.1 iv.2))) iv.1 iv.2 ea := by
          simp only [calculateAngle, if_neg hz, eq_self_iff_true, if_true]
        rw [hres]
        exact anglePhase2_range _ _ iv.1 iv.2 ea

/-- C3: for f1(x) = x and f2(x) = -x on [-1,1] with isUnitary = false, the
Simpson inner product is exactly -2/3, both norms are sqrt(2/3), and
calculateAngle returns 180 degrees; with ensureAcute = true, f2 is flipped
(to the expression -(-x), which evaluates pointwise to x) and the angle is 0
degrees. -/
theorem C3_concrete :
    simpsonF (evalF (Expr.mul .X (.neg .X))) (-1) 1 200 = .fin (-(2 / 3)) ∧
    normOf .X (-1) 1 = .fin (Real.sqrt (2 / 3)) ∧
    normOf (.neg .X) (-1) 1 = .fin (Real.sqrt (2 / 3)) ∧
    calculateAngle .X (.neg .X) false (-1, 1) false = ⟨some (.fin 180), .X, .neg .X⟩ ∧
    calculateAngle .X (.neg .X) false (-1, 1) true = ⟨some (.fin 0), .X, .neg (.neg .X)⟩ ∧
    (∀ t : ℝ, evalF (.neg (.neg .X)) t = .fin t) := by
  refine ⟨simpson_ip_X_negX, normOf_X, normOf_negX, ?_, ?_, ?_⟩
  · rw [calculateAngle_unfold_false]
    exact anglePhase2_X_negX_obtuse
  · rw [calculateAngle_unfold_false]
    exact anglePhase2_X_negX_acute
  · intro t
    show JsNum.fin (- -t) = _
    rw [neg_neg]

/-- C5 (counterexample): with ensureAcute = true, f1 = 0/0 and f2 = x on
[-1,1], calculateAngle returns a non-Null (NaN) angle, yet the inner product
of the returned expressions, recomputed with the same integrator, is NaN,
which is not >= 0 -- refuting the claim for non-Null results in general. -/
theorem C5_counterexample :
    (calculateAngle (Expr.div (.const (.fin 0)) (.const (.fin 0))) .X false (-1, 1) true).angle
      ≠ none ∧
    ¬ JsNum.nonneg (simpsonF (evalF (Expr.mul
        (calculateAngle (Expr.div (.const (.fin 0)) (.const (.fin 0))) .X false
          (-1, 1) true).f1_final
        (calculateAngle (Expr.div (.const (.fin 0)) (.const (.fin 0))) .X false
          (-1, 1) true).f2_final)) (-1) 1 200) := by
  have h : calculateAngle (Expr.div (.const (.fin 0)) (.const (.fin 0))) .X false (-1, 1) true
      = ⟨some JsNum.nan, Expr.div (.const (.fin 0)) (.const (.fin 0)), .X⟩ := by
    rw [calculateAngle_unfold_false]
    exact anglePhase2_zz_X true
  constructor
  · rw [h]
    simp
  · rw [h]
    show ¬ JsNum.nonneg (simpsonF (evalF (Expr.mul
        (Expr.div (.const (.fin 0)) (.const (.fin 0))) .X)) (-1) 1 200)
    rw [simpsonF_nan _ _ _ _ evalF_mul_zz_X]
    simp

/-- C5 (amended): whenever calculateAngle is called with ensureAcute = true
and returns a finite (non-NaN, non-Null) angle, the L2 inner product of the
returned expressions, recomputed with the same Simpson integrator, is
nonnegative in the JavaScript sense (a finite value >= 0 or positive
infinity).  The original claim is amended only by excluding the NaN angles
exhibited in the counterexample: a NaN inner product passes the sign check
unflipped and yields a NaN (non-Null) angle. -/
theorem C5_amended (f1 f2 : Expr) (iu : Bool) (a b θ : ℝ)
    (h : (calculateAngle f1 f2 iu (a, b) true).angle = some (.fin θ)) :
    JsNum.nonneg (simpsonF (evalF (Expr.mul (calculateAngle f1 f2 iu (a, b) true).f1_final
        (calculateAngle f1 f2 iu (a, b) true).f2_final)) a b 200) := by
  cases iu with
  | false =>
      rw [calculateAngle_unfold_false] at h ⊢
      exact anglePhase2_acute_ip f1 f2 a b θ h
  | true =>
      by_cases hz : JsNum.eqZero (normOf f1 a b) ∨ JsNum.eqZero (normOf f2 a b)
      · have hres : calculateAngle f1 f2 true (a, b) true = ⟨none, f1, f2⟩ := by
          simp only [calculateAngle, if_pos hz, eq_self_iff_true, if_true]
        rw [hres] at h
        simp at h
      · have hres : calculateAngle f1 f2 true (a, b) true
            = anglePhase2 (Expr.div f1 (.const (normOf f1 a b)))
                (Expr.div f2 (.const (normOf f2 a b))) a b true := by
          simp only [calculateAngle, if_neg hz, eq_self_iff_true, if_true]
        rw [hres] at h ⊢
        exact anglePhase2_acute_ip _ _ a b θ h

theorem simpson_ip_X_X : simpsonF (evalF (Expr.mul .X .X)) (-1) 1 200 = .fin (2 / 3) := by
  have h : ∀ x : ℝ, evalF (Expr.mul .X .X) x = .fin (x ^ 2) := by
    intro x
    show JsNum.fin (x * x) = _
    rw [← sq]
  rw [simpsonF_fin _ (fun x => x ^ 2) _ _ _ h, show (200 : ℕ) = 2 * 100 from rfl,
    simpsonR_sq (-1) 1 100 (by norm_num)]
  norm_num

theorem anglePhase2_X_X_acute : anglePhase2 .X .X (-1) 1 true = ⟨some (.fin 0), .X, .X⟩ := by
  have hss : Real.sqrt (2 / 3) * Real.sqrt (2 / 3) = (2 / 3 : ℝ) :=
    Real.mul_self_sqrt (by norm_num)
  have hl : ¬ JsNum.ltZero (JsNum.fin (2 / 3)) := by
    simp only [JsNum.ltZero_fin]
    norm_num
  have hz : ¬(JsNum.eqZero (JsNum.fin (Real.sqrt (2 / 3)))
      ∨ JsNum.eqZero (JsNum.fin (Real.sqrt (2 / 3)))) := by
    simp [ne_of_gt sqrt23_pos]
  simp only [anglePhase2, simpson_ip_X_X, true_and, if_neg hl, normOf_X, hz,
    JsNum.mul_fin, hss, JsNum.div_fin]
  rw [if_neg (by norm_num : ¬((2 : ℝ) / 3 = 0))]
  rw [show ((2 : ℝ) / 3 / (2 / 3) : ℝ) = 1 by norm_num]
  simp only [JsNum.minJ_fin, JsNum.maxJ_fin]
  rw [show min (1 : ℝ) (1 : ℝ) = 1 by norm_num, show max (-1 : ℝ) (1 : ℝ) = 1 by norm_num]
  rw [JsNum.acos_fin, if_neg (show ¬((1 : ℝ) < -1 ∨ (1 : ℝ) < 1) by norm_num),
    Real.arccos_one, JsNum.mul_fin, zero_mul, if_neg not_false]

/-- C5 (witness): the amended theorem applied at the concrete acute-mode
round f1(x) = x, f2(x) = x on [-1,1], whose angle is the finite value 0. -/
theorem C5_witness :
    (calculateAngle .X .X false (-1, 1) true).angle = some (.fin 0) ∧
    JsNum.nonneg (simpsonF (evalF (Expr.mul (calculateAngle .X .X false (-1, 1) true).f1_final
        (calculateAngle .X .X false (-1, 1) true).f2_final)) (-1) 1 200) := by
  have h : calculateAngle .X .X false (-1, 1) true = ⟨some (.fin 0), .X, .X⟩ := by
    rw [calculateAngle_unfold_false]
    exact anglePhase2_X_X_acute
  exact ⟨by rw [h], C5_amended .X .X false (-1) 1 0 (by rw [h])⟩

theorem redraw_not_degen (f1 : Expr) (draws : ℕ → Expr) (k fuel : ℕ) (f2 : Expr)
    (h : redraw f1 draws k fuel = some f2) : ¬ degen f1 f2 := by
  induction fuel generalizing k with
  | zero => simp [redraw] at h
  | succ n ih =>
      rw [redraw] at h
      by_cases hd : degen f1 (draws k)
      · rw [if_pos hd] at h
        exact ih (k + 1) h
      · rw [if_neg hd] at h
        obtain rfl : draws k = f2 := Option.some.inj h
        exact hd

/-- C2 (counterexample): the degeneracy check of the redraw loop is
one-directional: with first draw x and second draw -(x), the check
f1 = f2 or f1 = -(f2) both fail (x is not structurally -(x), and x is not
structurally -(-(x))), so the loop accepts a pair whose second function is
the structural negation of the first. -/
theorem C2_counterexample :
    getNewFunctionsM (fun i => if i = 0 then Expr.X else Expr.neg Expr.X) 1
      = some (Expr.X, Expr.neg Expr.X) := by
  have hd : ¬ degen Expr.X (Expr.neg Expr.X) := by
    simp [degen]
  simp [getNewFunctionsM, redraw, hd]

/-- C2 (amended): when the redraw loop of getNewFunctions returns, the first
function is exactly the first draw (only the second is redrawn), the two
functions are not structurally equal, and the first is not the structural
negation of the second.  The claim is amended only by dropping the symmetric
direction: the source never checks whether f2 equals -(f1), and the
counterexample shows such pairs are accepted. -/
theorem C2_amended (draws : ℕ → Expr) (fuel : ℕ) (p : Expr × Expr)
    (h : getNewFunctionsM draws fuel = some p) :
    p.1 = draws 0 ∧ p.1 ≠ p.2 ∧ p.1 ≠ Expr.neg p.2 := by
  obtain ⟨f2, hred, hp⟩ : ∃ f2, redraw (draws 0) (fun k => draws (k + 1)) 0 fuel = some f2
      ∧ p = (draws 0, f2) := by
    unfold getNewFunctionsM at h
    cases hr : redraw (draws 0) (fun k => draws (k + 1)) 0 fuel with
    | none => rw [hr] at h; simp at h
    | some f2 =>
        rw [hr] at h
        simp at h
        exact ⟨f2, rfl, h.symm⟩
  subst hp
  have hnd := redraw_not_degen _ _ _ _ _ hred
  exact ⟨rfl, fun he => hnd (Or.inl he), fun he => hnd (Or.inr he)⟩

/-- C2 (witness): the amended theorem applied to the concrete run whose
first draw is x and whose first candidate for the second function is the
constant 1, accepted immediately. -/
theorem C2_witness :
    getNewFunctionsM (fun i => if i = 0 then Expr.X else Expr.const (.fin 1)) 1
      = some (Expr.X, Expr.const (.fin 1)) ∧
    ((Expr.X, Expr.const (JsNum.fin 1)).1
        = (fun i : ℕ => if i = 0 then Expr.X else Expr.const (.fin 1)) 0 ∧
      (Expr.X, Expr.const (JsNum.fin 1)).1 ≠ (Expr.X, Expr.const (JsNum.fin 1)).2 ∧
      (Expr.X, Expr.const (JsNum.fin 1)).1
        ≠ Expr.neg (Expr.X, Expr.const (JsNum.fin 1)).2) := by
  have hrun : getNewFunctionsM (fun i => if i = 0 then Expr.X else Expr.const (.fin 1)) 1
      = some (Expr.X, Expr.const (.fin 1)) := by
    have hd : ¬ degen Expr.X (Expr.const (.fin 1)) := by
      simp [degen]
    simp [getNewFunctionsM, redraw, hd]
  exact ⟨hrun, C2_amended _ 1 _ hrun⟩

theorem redraw_self_none (k fuel : ℕ) : redraw Expr.X (fun _ => Expr.X) k fuel = none := by
  induction fuel generalizing k with
  | zero => rfl
  | succ n ih =>
      rw [redraw, if_pos (show degen Expr.X Expr.X from Or.inl rfl)]
      exact ih (k + 1)

/-- C9 (counterexample): the redraw loop has no iteration cap: on the
degenerate candidate stream that always returns the same expression as the
first function, the loop is still running after 1000 iterations (the cap
value suggested by the claim) and after 1001, with no
could-not-generate-a-valid-round error ever produced -- there is no error
value in the loop at all. -/
theorem C9_counterexample :
    redraw Expr.X (fun _ => Expr.X) 0 1000 = none ∧
    redraw Expr.X (fun _ => Expr.X) 0 1001 = none :=
  ⟨redraw_self_none 0 1000, redraw_self_none 0 1001⟩

/-- C9 (amended): the retry loops are unbounded: the redraw loop of
getNewFunctions (and likewise the regeneration loop of startNewRound, which
wraps it) has no iteration cap and no failure branch, so on a pathological
draw stream it never terminates for any number of observed iterations. -/
theorem C9_amended (k fuel : ℕ) : redraw Expr.X (fun _ => Expr.X) k fuel = none :=
  redraw_self_none k fuel

/-- C4: over any interval with a < b and any positive sample count, the
Simpson integrator applied to the constant zero function returns exactly 0,
applied to the constant one function returns b - a (hence within the 1e-9
tolerance), and an odd n is rounded up to the even n + 1 before use. -/
theorem C4_integrator (a b : ℝ) (n : ℕ) (hab : a < b) (hn : 0 < n) :
    simpsonF (fun _ => JsNum.fin 0) a b n = .fin 0 ∧
    (∃ r : ℝ, simpsonF (fun _ => JsNum.fin 1) a b n = .fin r ∧ |r - (b - a)| ≤ 1 / 10 ^ 9) ∧
    (∀ m : ℕ, m % 2 = 1 → simpsonN m = m + 1 ∧ simpsonN m % 2 = 0) := by
  refine ⟨?_, ⟨b - a, ?_, ?_⟩, ?_⟩
  · rw [simpsonF_fin _ (fun _ => (0 : ℝ)) _ _ _ (fun _ => rfl), simpsonR_zero]
  · rw [simpsonF_fin _ (fun _ => (1 : ℝ)) _ _ _ (fun _ => rfl),
      simpsonR_const 1 a b n hn, mul_one]
  · rw [sub_self, abs_zero]
    positivity
  · intro m hm
    have hne : m % 2 ≠ 0 := by omega
    constructor
    · simp [simpsonN, hne]
    · simp [simpsonN, hne]
      omega

/-- C4 (witness): the integrator theorem at the concrete interval [0,1]
with n = 2. -/
theorem C4_witness :
    ((0 : ℝ) < 1 ∧ 0 < 2) ∧
    (simpsonF (fun _ => JsNum.fin 0) 0 1 2 = .fin 0 ∧
     (∃ r : ℝ, simpsonF (fun _ => JsNum.fin 1) 0 1 2 = .fin r ∧ |r - (1 - 0)| ≤ 1 / 10 ^ 9) ∧
     (∀ m : ℕ, m % 2 = 1 → simpsonN m = m + 1 ∧ simpsonN m % 2 = 0)) :=
  ⟨⟨by norm_num, by norm_num⟩, C4_integrator 0 1 2 (by norm_num) (by norm_num)⟩

/-- C6 (counterexample): the score is not strictly decreasing in the
difference over its whole range: with actual angle 0, the guesses 180 and
181 have strictly different differences yet both score exactly 0. -/
theorem C6_counterexample :
    scoreGuess 0 180 = 0 ∧ scoreGuess 0 181 = 0 ∧ |(0 : ℝ) - 180| < |(0 : ℝ) - 181| := by
  refine ⟨?_, ?_, by rw [abs_sub_comm, abs_sub_comm 0 181]; norm_num⟩
  · rw [scoreGuess, show |(0 : ℝ) - 180| = 180 by rw [abs_sub_comm]; norm_num]
    norm_num
  · rw [scoreGuess, show |(0 : ℝ) - 181| = 181 by rw [abs_sub_comm]; norm_num]
    rw [show (1 : ℝ) - 181 / 180 = -(1 / 180) by norm_num,
      max_eq_left (by norm_num : (-(1 / 180) : ℝ) ≤ 0)]
    norm_num

/-- C6 (amended): the score equals 100 times the cube of max(0, 1 - diff/180)
with diff = |actual - guess|; it lies in [0,100], is zero whenever
diff >= 180, scores 100 at (actual, guess) = (0, 0) and 0 at (0, 180), and is
strictly decreasing in diff on the range diff <= 180.  The claim is amended
only by restricting strict monotonicity to diffs up to 180: beyond 180 the
score is constantly 0, as the counterexample shows. -/
theorem C6_amended :
    (∀ a g : ℝ, 0 ≤ scoreGuess a g ∧ scoreGuess a g ≤ 100) ∧
    (∀ a g1 g2 : ℝ, |a - g1| < |a - g2| → |a - g2| ≤ 180 →
      scoreGuess a g2 < scoreGuess a g1) ∧
    (∀ a g : ℝ, 180 ≤ |a - g| → scoreGuess a g = 0) ∧
    scoreGuess 0 0 = 100 ∧ scoreGuess 0 180 = 0 := by
  refine ⟨?_, ?_, ?_, ?_, ?_⟩
  · intro a g
    constructor
    · rw [scoreGuess]
      positivity
    · rw [scoreGuess]
      have h0 : 0 ≤ max 0 (1 - |a - g| / 180) := le_max_left 0 _
      have h1 : max 0 (1 - |a - g| / 180) ≤ 1 := by
        apply max_le (by norm_num)
        have : 0 ≤ |a - g| / 180 := by positivity
        linarith
      nlinarith [pow_le_one₀ h0 h1 (n := 3)]
  · intro a g1 g2 h12 h2
    rw [scoreGuess, scoreGuess]
    have hq2 : |a - g2| / 180 ≤ 1 := (div_le_one (by norm_num)).mpr h2
    have hb2 : 0 ≤ 1 - |a - g2| / 180 := by linarith
    have hlt : 1 - |a - g2| / 180 < 1 - |a - g1| / 180 := by
      have := (div_lt_div_iff_of_pos_right (show (0 : ℝ) < 180 by norm_num)).mpr h12
      linarith
    have hb1 : 0 ≤ 1 - |a - g1| / 180 := le_trans hb2 (le_of_lt hlt)
    rw [max_eq_right hb2, max_eq_right hb1]
    have := pow_lt_pow_left₀ hlt hb2 (n := 3) (by norm_num)
    linarith
  · intro a g h
    rw [scoreGuess]
    have h1 : (1 : ℝ) ≤ |a - g| / 180 := (one_le_div (by norm_num)).mpr h
    rw [max_eq_left (by linarith : 1 - |a - g| / 180 ≤ (0 : ℝ)),
      zero_pow (by norm_num : (3 : ℕ) ≠ 0), mul_zero]
  · rw [scoreGuess]
    norm_num
  · rw [scoreGuess, show |(0 : ℝ) - 180| = 180 by rw [abs_sub_comm]; norm_num]
    norm_num

/-- C8: for every round interval [a,b] with a < b and every x in [a,b], the
asin primitive of the generator grammar, instantiated with
intervalLimit = max(|a|,|b|), is a member of the primitive list, its argument
x / intervalLimit lies in [-1,1], and its evaluation at x is the finite value
arcsin(x / intervalLimit) -- no domain violation occurs on the round's
interval. -/
theorem C8_asin_domain (a b x : ℝ) (hab : a < b) (hax : a ≤ x) (hxb : x ≤ b) :
    asinPrimitive (intervalLimit a b) ∈ baseFunctions (intervalLimit a b) ∧
    |x / intervalLimit a b| ≤ 1 ∧
    evalF (asinPrimitive (intervalLimit a b)) x
      = .fin (Real.arcsin (x / intervalLimit a b)) := by
  have hL : 0 < intervalLimit a b := by
    rw [intervalLimit]
    rcases le_or_lt b 0 with hb | hb
    · have ha : a < 0 := lt_of_lt_of_le hab hb
      exact lt_of_lt_of_le (abs_pos.mpr (ne_of_lt ha)) (le_max_left _ _)
    · exact lt_of_lt_of_le (abs_pos.mpr (ne_of_gt hb)) (le_max_right _ _)
  have habs : |x| ≤ intervalLimit a b := by
    rw [abs_le]
    constructor
    · calc -(intervalLimit a b) ≤ -|a| := neg_le_neg (le_max_left _ _)
        _ ≤ a := neg_abs_le a
        _ ≤ x := hax
    · calc x ≤ b := hxb
        _ ≤ |b| := le_abs_self b
        _ ≤ intervalLimit a b := le_max_right _ _
  have hdom : |x / intervalLimit a b| ≤ 1 := by
    rw [abs_div, abs_of_pos hL]
    exact (div_le_one hL).mpr habs
  refine ⟨?_, hdom, ?_⟩
  · simp [baseFunctions]
  · have hdiv : evalF (asinPrimitive (intervalLimit a b)) x
        = JsNum.appFn .asin (.fin (x / intervalLimit a b)) := by
      show JsNum.appFn .asin (JsNum.div (.fin x) (.fin (intervalLimit a b))) = _
      rw [JsNum.div_fin, if_neg (ne_of_gt hL)]
    rw [hdiv]
    show (if x / intervalLimit a b < -1 ∨ 1 < x / intervalLimit a b then JsNum.nan
      else .fin (Real.arcsin (x / intervalLimit a b))) = _
    rw [if_neg]
    rw [abs_le] at hdom
    push_neg
    exact ⟨by linarith [hdom.1], by linarith [hdom.2]⟩

/-- C8 (witness): the domain-safety theorem at the concrete interval [-1,1]
and sample point 0. -/
theorem C8_witness :
    asinPrimitive (intervalLimit (-1) 1) ∈ baseFunctions (intervalLimit (-1) 1) ∧
    |(0 : ℝ) / intervalLimit (-1) 1| ≤ 1 ∧
    evalF (asinPrimitive (intervalLimit (-1) 1)) 0
      = .fin (Real.arcsin (0 / intervalLimit (-1) 1)) :=
  C8_asin_domain (-1) 1 0 (by norm_num) (by norm_num) (by norm_num)

theorem toFin_mul_finK (v : JsNum) (k : ℝ) (hk : k ≠ 0) :
    JsNum.toFin (JsNum.mul v (.fin k)) = (JsNum.toFin v).map (fun y => y * k) := by
  cases v with
  | fin a => rfl
  | inf s =>
      show JsNum.toFin (if k = 0 then JsNum.nan else if 0 < k then JsNum.inf s
        else JsNum.inf (!s)) = none
      rw [if_neg hk]
      split <;> rfl
  | nan => rfl

theorem maxAbsFin_nil : maxAbsFin [] = 0 := rfl

theorem maxAbsFin_cons_fin (a : ℝ) (l : List JsNum) :
    maxAbsFin (.fin a :: l) = max |a| (maxAbsFin l) := rfl

theorem maxAbsFin_cons_none (v : JsNum) (l : List JsNum) (h : JsNum.toFin v = none) :
    maxAbsFin (v :: l) = maxAbsFin l := by
  unfold maxAbsFin
  rw [List.filterMap_cons_none h]

theorem foldr_max_nonneg (l : List ℝ) : 0 ≤ l.foldr max 0 := by
  induction l with
  | nil => exact le_refl 0
  | cons a l ih => exact le_trans ih (le_max_right a _)

theorem maxAbsFin_nonneg (l : List JsNum) : 0 ≤ maxAbsFin l := foldr_max_nonneg _

theorem maxAbsFin_scale (k : ℝ) (hk : 0 < k) (l : List JsNum) :
    maxAbsFin (l.map (fun v => JsNum.mul v (.fin k))) = k * maxAbsFin l := by
  induction l with
  | nil => simp [maxAbsFin]
  | cons v l ih =>
      rw [List.map_cons]
      cases hv : JsNum.toFin v with
      | none =>
          have hnone : JsNum.toFin (JsNum.mul v (.fin k)) = none := by
            rw [toFin_mul_finK v k (ne_of_gt hk), hv]
            rfl
          rw [maxAbsFin_cons_none _ _ hnone, maxAbsFin_cons_none v l hv, ih]
      | some a =>
          have hva : v = .fin a := by
            cases v with
            | fin b =>
                have : b = a := by simpa [JsNum.toFin] using hv
                rw [this]
            | inf s => simp [JsNum.toFin] at hv
            | nan => simp [JsNum.toFin] at hv
          rw [hva, show JsNum.mul (.fin a) (.fin k) = .fin (a * k) from rfl,
            maxAbsFin_cons_fin, maxAbsFin_cons_fin, ih,
            mul_max_of_nonneg _ _ (le_of_lt hk), abs_mul, abs_of_pos hk, mul_comm |a| k]

/-- C7: after the magnitude-balancing pre-pass of startNewRound, whenever
both functions have positive peak absolute finite values over the 100
balancing sample points, the peaks of the two balanced curves over those
same sample points differ by at most a factor of 5: the smaller-magnitude
function is multiplied by k = ceil(ratio/5), and ratio/ceil(ratio/5) <= 5
while the scaled peak stays below the larger one times 5. -/
theorem C7_balancing (f1 f2 : Expr) (a b : ℝ)
    (h1 : 0 < maxAbsFin ((sample100 a b).map (evalF f1)))
    (h2 : 0 < maxAbsFin ((sample100 a b).map (evalF f2))) :
    maxAbsFin ((sample100 a b).map (evalF (balancePair f1 f2 a b).1))
      ≤ 5 * maxAbsFin ((sample100 a b).map (evalF (balancePair f1 f2 a b).2)) ∧
    maxAbsFin ((sample100 a b).map (evalF (balancePair f1 f2 a b).2))
      ≤ 5 * maxAbsFin ((sample100 a b).map (evalF (balancePair f1 f2 a b).1)) := by
  set M1 := maxAbsFin ((sample100 a b).map (evalF f1)) with hM1
  set M2 := maxAbsFin ((sample100 a b).map (evalF f2)) with hM2
  by_cases hlt : M2 < M1
  · by_cases hr : 5 < M1 / M2
    · have hbp : balancePair f1 f2 a b
          = (f1, Expr.mul f2 (Expr.const (.fin ((⌈(M1 / M2) / 5⌉₊ : ℕ) : ℝ)))) := by
        simp only [balancePair]
        rw [← hM1, ← hM2, if_pos (⟨h1, h2⟩ : 0 < M1 ∧ 0 < M2)]
        simp only [if_pos hlt]
        rw [if_pos hr]
      set k : ℝ := ((⌈(M1 / M2) / 5⌉₊ : ℕ) : ℝ) with hkdef
      have hk1 : (1 : ℝ) ≤ k := by
        rw [hkdef]
        have hc : (1 : ℕ) ≤ ⌈(M1 / M2) / 5⌉₊ := by
          rw [Nat.one_le_ceil_iff]
          positivity
        exact_mod_cast hc
      have hkpos : (0 : ℝ) < k := lt_of_lt_of_le one_pos hk1
      have hup : (M1 / M2) / 5 ≤ k := by
        rw [hkdef]
        exact_mod_cast Nat.le_ceil _
      have hdown : k < (M1 / M2) / 5 + 1 := by
        rw [hkdef]
        exact_mod_cast Nat.ceil_lt_add_one (by positivity : (0 : ℝ) ≤ (M1 / M2) / 5)
      have hP2 : maxAbsFin ((sample100 a b).map (evalF (Expr.mul f2 (Expr.const (.fin k)))))
          = k * M2 := by
        have hcomp : (sample100 a b).map (evalF (Expr.mul f2 (Expr.const (.fin k))))
            = ((sample100 a b).map (evalF f2)).map (fun v => JsNum.mul v (.fin k)) := by
          rw [List.map_map]
          rfl
        rw [hcomp, maxAbsFin_scale k hkpos, ← hM2]
      rw [hbp]
      constructor
      · show M1 ≤ 5 * maxAbsFin ((sample100 a b).map
          (evalF (Expr.mul f2 (Expr.const (.fin k)))))
        rw [hP2]
        have hx : M1 / M2 ≤ 5 * k := by linarith
        have hy : M1 ≤ 5 * k * M2 := (div_le_iff₀ h2).mp hx
        linarith [hy]
      · show maxAbsFin ((sample100 a b).map (evalF (Expr.mul f2 (Expr.const (.fin k)))))
          ≤ 5 * M1
        rw [hP2]
        have h5M2 : 5 * M2 < M1 := (lt_div_iff₀ h2).mp hr
        have hcancel : M1 / M2 * M2 = M1 := div_mul_cancel₀ M1 (ne_of_gt h2)
        nlinarith [mul_lt_mul_of_pos_right hdown h2, hcancel, le_of_lt h1]
    · have hbp : balancePair f1 f2 a b = (f1, f2) := by
        simp only [balancePair]
        rw [← hM1, ← hM2, if_pos (⟨h1, h2⟩ : 0 < M1 ∧ 0 < M2)]
        simp only [if_pos hlt]
        rw [if_neg hr]
      rw [hbp]
      constructor
      · show M1 ≤ 5 * M2
        have hx : M1 / M2 ≤ 5 := le_of_not_lt hr
        have := (div_le_iff₀ h2).mp hx
        linarith
      · show M2 ≤ 5 * M1
        linarith
  · have hle : M1 ≤ M2 := le_of_not_lt hlt
    by_cases hr : 5 < M2 / M1
    · have hbp : balancePair f1 f2 a b
          = (Expr.mul f1 (Expr.const (.fin ((⌈(M2 / M1) / 5⌉₊ : ℕ) : ℝ))), f2) := by
        simp only [balancePair]
        rw [← hM1, ← hM2, if_pos (⟨h1, h2⟩ : 0 < M1 ∧ 0 < M2)]
        simp only [if_neg hlt]
        rw [if_pos hr]
      set k : ℝ := ((⌈(M2 / M1) / 5⌉₊ : ℕ) : ℝ) with hkdef
      have hk1 : (1 : ℝ) ≤ k := by
        rw [hkdef]
        have hc : (1 : ℕ) ≤ ⌈(M2 / M1) / 5⌉₊ := by
          rw [Nat.one_le_ceil_iff]
          positivity
        exact_mod_cast hc
      have hkpos : (0 : ℝ) < k := lt_of_lt_of_le one_pos hk1
      have hup : (M2 / M1) / 5 ≤ k := by
        rw [hkdef]
        exact_mod_cast Nat.le_ceil _
      have hdown : k < (M2 / M1) / 5 + 1 := by
        rw [hkdef]
        exact_mod_cast Nat.ceil_lt_add_one (by positivity : (0 : ℝ) ≤ (M2 / M1) / 5)
      have hP1 : maxAbsFin ((sample100 a b).map (evalF (Expr.mul f1 (Expr.const (.fin k)))))
          = k * M1 := by
        have hcomp : (sample100 a b).map (evalF (Expr.mul f1 (Expr.const (.fin k))))
            = ((sample100 a b).map (evalF f1)).map (fun v => JsNum.mul v (.fin k)) := by
          rw [List.map_map]
          rfl
        rw [hcomp, maxAbsFin_scale k hkpos, ← hM1]
      rw [hbp]
      constructor
      · show maxAbsFin ((sample100 a b).map (evalF (Expr.mul f1 (Expr.const (.fin k)))))
          ≤ 5 * M2
        rw [hP1]
        have h5M1 : 5 * M1 < M2 := (lt_div_iff₀ h1).mp hr
        have hcancel : M2 / M1 * M1 = M2 := div_mul_cancel₀ M2 (ne_of_gt h1)
        nlinarith [mul_lt_mul_of_pos_right hdown h1, hcancel, le_of_lt h2]
      · show M2 ≤ 5 * maxAbsFin ((sample100 a b).map
          (evalF (Expr.mul f1 (Expr.const (.fin k)))))
        rw [hP1]
        have hx : M2 / M1 ≤ 5 * k := by linarith
        have hy : M2 ≤ 5 * k * M1 := (div_le_iff₀ h1).mp hx
        linarith [hy]
    · have hbp : balancePair f1 f2 a b = (f1, f2) := by
        simp only [balancePair]
        rw [← hM1, ← hM2, if_pos (⟨h1, h2⟩ : 0 < M1 ∧ 0 < M2)]
        simp only [if_neg hlt]
        rw [if_neg hr]
      rw [hbp]
      constructor
      · show M1 ≤ 5 * M2
        linarith
      · show M2 ≤ 5 * M1
        have hx : M2 / M1 ≤ 5 := le_of_not_lt hr
        have := (div_le_iff₀ h1).mp hx
        linarith

theorem maxAbsFin_ones (l : List ℝ) :
    maxAbsFin (l.map (fun _ => JsNum.fin 1)) = if l = [] then 0 else 1 := by
  induction l with
  | nil => simp [maxAbsFin_nil]
  | cons a l ih =>
      rw [List.map_cons, maxAbsFin_cons_fin, ih]
      rw [if_neg (List.cons_ne_nil a l)]
      rcases eq_or_ne l [] with h | h
      · simp [h]
      · rw [if_neg h]
        norm_num

/-- C7 (witness): the balancing theorem applied to the pair of constant-one
functions on [0,1], whose sampled peaks are both 1. -/
theorem C7_witness :
    ((0 : ℝ) < maxAbsFin ((sample100 0 1).map (evalF (Expr.const (.fin 1))))) ∧
    (maxAbsFin ((sample100 0 1).map
        (evalF (balancePair (Expr.const (.fin 1)) (Expr.const (.fin 1)) 0 1).1))
      ≤ 5 * maxAbsFin ((sample100 0 1).map
        (evalF (balancePair (Expr.const (.fin 1)) (Expr.const (.fin 1)) 0 1).2)) ∧
    maxAbsFin ((sample100 0 1).map
        (evalF (balancePair (Expr.const (.fin 1)) (Expr.const (.fin 1)) 0 1).2))
      ≤ 5 * maxAbsFin ((sample100 0 1).map
        (evalF (balancePair (Expr.const (.fin 1)) (Expr.const (.fin 1)) 0 1).1))) := by
  have hne : sample100 0 1 ≠ [] := by
    simp only [sample100, ne_eq, List.map_eq_nil_iff, List.range_eq_nil]
    norm_num
  have hpos : (0 : ℝ) < maxAbsFin ((sample100 0 1).map (evalF (Expr.const (.fin 1)))) := by
    show (0 : ℝ) < maxAbsFin ((sample100 0 1).map (fun _ => JsNum.fin 1))
    rw [maxAbsFin_ones, if_neg hne]
    norm_num
  exact ⟨hpos, C7_balancing (Expr.const (.fin 1)) (Expr.const (.fin 1)) 0 1 hpos hpos⟩
